import Mathlib

/-!
Verification of the `infinint` crate (src/lib.rs): a packed-decimal
arbitrary-precision integer. Each definition below is a shallow embedding of
the Rust item of the same (snake-case) name; bytes are modelled as `Nat`
(always < 256 for values the library builds), vectors as `List Nat`, and the
bounded `while` loops of the source as structurally recursive helpers over an
explicit fuel argument that is instantiated with a bound that the loop can
never exceed (each iteration advances both iterators, so the iteration count
is at most the sum of the lengths plus one). The mutually recursive pair
`infinint_add` / `infinint_subtract` is embedded as one function over an
operation tag plus fuel; running out of fuel yields `none`, and a theorem
below shows fuel 4 always suffices.
-/

/-- The `Infinint` struct: a sign flag and the little-endian packed digit
vector (two decimal digits per byte). -/
structure Infinint where
  negative : Bool
  digits_vec : List Nat
deriving Repr, DecidableEq

/-- Rust `decimal_digit_high`: the high nybble, `(0xF0 & n) >> 4`. The Rust
function returns `Err` for a nybble value at least 10; that check is modelled
separately by `WellFormed` below, since every call site in the source
immediately unwraps. -/
def decimalDigitHigh (n : Nat) : Nat := (0xF0 &&& n) >>> 4

/-- Rust `decimal_digit_low`: the low nybble, `0x0F & n`. -/
def decimalDigitLow (n : Nat) : Nat := 0x0F &&& n

/-- Rust `decimal_digits(n).unwrap()`: the pair `(high nybble, low nybble)`
of a packed byte. -/
def decimalDigitsT (n : Nat) : Nat × Nat := (decimalDigitHigh n, decimalDigitLow n)

/-- The data-model invariant of the spec (section 3): every stored byte is a
byte and both of its nybbles are decimal digits. On such bytes the Rust
codec `decimal_digits` never returns `Err`, so the `unwrap` calls modelled
totally by `decimalDigitsT` never panic. -/
def WellFormed (v : Infinint) : Prop :=
  ∀ b ∈ v.digits_vec, b < 256 ∧ decimalDigitHigh b < 10 ∧ decimalDigitLow b < 10

instance (v : Infinint) : Decidable (WellFormed v) := by
  unfold WellFormed
  infer_instance

/-- Rust `decimal_add_with_carry`. -/
def decimalAddWithCarry (n m carry : Nat) : Nat × Nat :=
  let result := n + m + carry
  let carry := result / 10
  let result := result % 10
  (result, carry)

/-- Rust `decimal_subtract_with_carry`. -/
def decimalSubtractWithCarry (n m carry : Nat) : Nat × Nat :=
  if n ≥ m + carry then (n - m - carry, 0) else (n + 10 - m - carry, 1)

/-- The loop of Rust `Infinint::digits_vec_from_int`: extract the two least
significant decimal digits (the lower-order one into the high nybble), pack,
divide by 100, repeat while the value is positive. Structural recursion on a
fuel argument; `digitsVecFromInt` passes fuel `n`, which is enough because
the value at least halves every iteration. -/
def dvGo : Nat → Nat → List Nat
  | 0, _ => []
  | fuel + 1, n =>
    if n = 0 then []
    else
      let n_mod := n % 10
      let d := n_mod <<< 4
      let n1 := n / 10
      let n_mod := n1 % 10
      let d := n_mod ||| d
      let n2 := n1 / 10
      d :: dvGo fuel n2

/-- Rust `Infinint::digits_vec_from_int` (the `bytes_needed` computation of
the source only sizes the vector capacity and has no semantic effect). -/
def digitsVecFromInt (n : Nat) : List Nat :=
  if n > 0 then dvGo n n else [0]

/-- Rust `From<u128> for Infinint`. -/
def Infinint.fromU128 (n : Nat) : Infinint :=
  ⟨false, digitsVecFromInt n⟩

/-- Rust `From<i128> for Infinint`, in release-mode semantics where
`n.abs() as u128` is the absolute value (exact for every `n` other than
`i128::MIN`, where `abs` overflows - see `fromI128Checked`). -/
def Infinint.fromInt (n : Int) : Infinint :=
  ⟨decide (n < 0), digitsVecFromInt n.natAbs⟩

/-- Rust `From<i128> for Infinint` with the overflow check of `i128::abs`
made explicit: `(-2^127).abs()` overflows `i128` and panics when overflow
checks are enabled (the default test profile), modelled as `none`. -/
def fromI128Checked (n : Int) : Option Infinint :=
  if n = -(2 ^ 127) then none
  else some ⟨decide (n < 0), digitsVecFromInt n.natAbs⟩

/-- The effective sign computation that opens Rust `infinint_cmp`,
`infinint_add` and `infinint_subtract`:
`if negate == false { v.negative } else { !v.negative }`. -/
def effNeg (v : Infinint) (negate : Bool) : Bool :=
  if negate = false then v.negative else !v.negative

/-- The loop of Rust `Infinint::cmp_digits`, already running on the reversed
(most-significant-first) vectors; reads past the end are zero
(`iter.next().unwrap_or(&0)`). The loop exits as soon as both current bytes
are zero; otherwise it compares the low nybbles (the higher-order decimal
digits of the pair) first, then the high nybbles, and advances. -/
def cmpGo : Nat → List Nat → List Nat → Ordering
  | 0, _, _ => Ordering.eq
  | fuel + 1, ns, ms =>
    let n_next := ns.headD 0
    let m_next := ms.headD 0
    if n_next = 0 ∧ m_next = 0 then Ordering.eq
    else
      let nd := decimalDigitsT n_next
      let md := decimalDigitsT m_next
      if nd.2 < md.2 then Ordering.lt
      else if md.2 < nd.2 then Ordering.gt
      else if nd.1 < md.1 then Ordering.lt
      else if md.1 < nd.1 then Ordering.gt
      else cmpGo fuel ns.tail ms.tail

/-- Rust `Infinint::cmp_digits`: the iterators are the two vectors reversed;
each loop iteration advances both, so `n.length + m.length + 1` fuel can
never run out. -/
def cmpDigits (n_digits_vec m_digits_vec : List Nat) : Ordering :=
  cmpGo (n_digits_vec.length + m_digits_vec.length + 1)
    n_digits_vec.reverse m_digits_vec.reverse

/-- Rust `Infinint::infinint_cmp` (`Ordering::reverse` is `Ordering.swap`). -/
def infinintCmp (n m : Infinint) (negate_n negate_m : Bool) : Ordering :=
  let n_negative := effNeg n negate_n
  let m_negative := effNeg m negate_m
  if n_negative = true ∧ m_negative = false then Ordering.lt
  else if n_negative = false ∧ m_negative = true then Ordering.gt
  else if n.digits_vec.length < m.digits_vec.length then Ordering.lt
  else if m.digits_vec.length < n.digits_vec.length then Ordering.gt
  else
    let digits_ordering := cmpDigits n.digits_vec m.digits_vec
    if n_negative = true then digits_ordering.swap else digits_ordering

/-- Rust `PartialEq for Infinint`: equality is `cmp == Equal`, not
structural equality. -/
def infinintEq (a b : Infinint) : Prop :=
  infinintCmp a b false false = Ordering.eq

instance (a b : Infinint) : Decidable (infinintEq a b) :=
  inferInstanceAs (Decidable (_ = _))

/-- The loop of Rust `Infinint::op_digits`, returning the pushed bytes and
the final carry. Both iterators read zero past the end and both advance each
iteration; the loop exits as soon as both current bytes are zero. For each
byte the digit operation is applied to the high nybbles (the lower-order
decimal digits) first, then to the low nybbles with the carry threaded
through. -/
def opGo (op : Nat → Nat → Nat → Nat × Nat) :
    Nat → List Nat → List Nat → Nat → List Nat × Nat
  | 0, _, _, carry => ([], carry)
  | fuel + 1, ns, ms, carry =>
    let n_next := ns.headD 0
    let m_next := ms.headD 0
    if n_next = 0 ∧ m_next = 0 then ([], carry)
    else
      let nd := decimalDigitsT n_next
      let md := decimalDigitsT m_next
      let r1 := op nd.1 md.1 carry
      let upper_result_digit := r1.1
      let r2 := op nd.2 md.2 r1.2
      let lower_result_digit := r2.1
      let result_digit := (upper_result_digit <<< 4) ||| lower_result_digit
      let rest := opGo op fuel ns.tail ms.tail r2.2
      (result_digit :: rest.1, rest.2)

/-- Rust `Infinint::op_digits`: run the loop, append `carry << 4` as one
more byte if the terminal carry is positive, and force `[0x00]` if the
result would be empty. -/
def opDigits (n_digits_vec m_digits_vec : List Nat)
    (op : Nat → Nat → Nat → Nat × Nat) : List Nat :=
  let r := opGo op (n_digits_vec.length + m_digits_vec.length + 1)
    n_digits_vec m_digits_vec 0
  let result_digits_vec := if r.2 > 0 then r.1 ++ [r.2 <<< 4] else r.1
  if result_digits_vec = [] then [0] else result_digits_vec

/-- Operation tag for the mutually recursive pair
`Infinint::infinint_add` / `Infinint::infinint_subtract` (the spec, section
9, notes the pair is equivalently a single function over such a tag). -/
inductive ArithOp
  | add
  | sub
deriving Repr, DecidableEq

/-- Rust `Infinint::infinint_add` (tag `.add`) and
`Infinint::infinint_subtract` (tag `.sub`), embedded as one function,
structurally recursive on fuel; `none` means the fuel ran out (the theorem
for claim C10 shows fuel 4 always suffices). Every branch is a direct
transcription of the corresponding `return` in the source; the `Greater`
arm of the subtraction `match` falls through to the `op_digits` call. -/
def infinintOpF :
    Nat → ArithOp → Infinint → Infinint → Bool → Bool → Bool → Option Infinint
  | 0, _, _, _, _, _, _ => none
  | fuel + 1, ArithOp.add, n, m, negate_n, negate_m, negate_result =>
    let n_negative := effNeg n negate_n
    let m_negative := effNeg m negate_m
    if n_negative = false ∧ m_negative = true then
      infinintOpF fuel ArithOp.sub n m negate_n (!negate_m) negate_result
    else if n_negative = true ∧ m_negative = false then
      infinintOpF fuel ArithOp.sub m n negate_m (!negate_n) negate_result
    else
      let result_digits_vec := opDigits n.digits_vec m.digits_vec decimalAddWithCarry
      let result_negative := if negate_result = false then n_negative else !n_negative
      some ⟨result_negative, result_digits_vec⟩
  | fuel + 1, ArithOp.sub, n, m, negate_n, negate_m, negate_result =>
    let n_negative := effNeg n negate_n
    let m_negative := effNeg m negate_m
    if n_negative = false ∧ m_negative = true then
      infinintOpF fuel ArithOp.add n m negate_n (!negate_m) negate_result
    else if n_negative = true ∧ m_negative = false then
      infinintOpF fuel ArithOp.add n m (!negate_n) negate_m (!negate_result)
    else if n_negative = true ∧ m_negative = true then
      infinintOpF fuel ArithOp.sub m n (!negate_m) (!negate_n) negate_result
    else
      match infinintCmp n m negate_n negate_m with
      | Ordering.lt => infinintOpF fuel ArithOp.sub m n negate_m negate_n (!negate_result)
      | Ordering.eq => some (Infinint.fromInt 0)
      | Ordering.gt =>
        let result_digits_vec := opDigits n.digits_vec m.digits_vec decimalSubtractWithCarry
        let result_negative := if negate_result = false then false else true
        some ⟨result_negative, result_digits_vec⟩

/-- Rust `ops::Add for &Infinint`: `infinint_add(self, other, false, false,
false)`; fuel 4 is enough for every input (claim C10). -/
def Infinint.add (a b : Infinint) : Option Infinint :=
  infinintOpF 4 ArithOp.add a b false false false

/-- Rust `ops::Sub for &Infinint`. -/
def Infinint.sub (a b : Infinint) : Option Infinint :=
  infinintOpF 4 ArithOp.sub a b false false false

/-- Rust `ops::Neg for &Infinint`: flip the sign flag, copy the magnitude. -/
def Infinint.neg (v : Infinint) : Infinint :=
  ⟨!v.negative, v.digits_vec⟩

/-- Rust `Infinint::digits`: decode each byte into its (high, low) digit
pair in order, then pop the last digit if it is zero. -/
def Infinint.digits (v : Infinint) : List Nat :=
  let digits := v.digits_vec.flatMap fun b => [decimalDigitHigh b, decimalDigitLow b]
  match digits.getLast? with
  | some d => if d = 0 then digits.dropLast else digits
  | none => digits

/-- The character of a decimal digit, Rust `char::from_digit(x, 10)` on the
in-range side; out-of-range digits are flattened away by the source and
filtered here. -/
def digitToChar (d : Nat) : Char := Char.ofNat (48 + d)

/-- Rust `fmt::Display for Infinint` in the default (non-alternate) format:
render the digits most-significant-first, insert a comma before position
`i` whenever `(num_chars - i) % 3 == 0` where `num_chars` counts digits plus
commas, and let `pad_integral` (no width set) prefix a minus sign exactly
when the sign flag is negative. -/
def Infinint.display (v : Infinint) : String :=
  let raw_digits := Infinint.digits v
  let num_digits := raw_digits.length
  let num_chars := num_digits + (num_digits - 1) / 3
  let number :=
    (raw_digits.filterMap fun x => if x < 10 then some (digitToChar x) else none).reverse
  let with_commas := number.enum.flatMap fun p =>
    (if (num_chars - p.1) % 3 = 0 then [','] else []) ++ [p.2]
  (if v.negative then "-" else "") ++ String.mk with_commas

/-! Helper lemmas shared by several claims. -/

theorem nybble_decode :
    ∀ a < 16, ∀ b < 16,
      decimalDigitHigh (b ||| (a <<< 4)) = a ∧ decimalDigitLow (b ||| (a <<< 4)) = b := by
  decide

theorem dvGo_zero : ∀ f, dvGo f 0 = [] := by
  intro f
  cases f <;> simp [dvGo]

theorem dvGo_ne_nil (f n : Nat) (h0 : 0 < n) (hle : n ≤ f) : dvGo f n ≠ [] := by
  cases f with
  | zero => omega
  | succ f => simp [dvGo, Nat.pos_iff_ne_zero.mp h0]

theorem cmpGo_self (fuel : Nat) : ∀ xs, cmpGo fuel xs xs = Ordering.eq := by
  induction fuel with
  | zero => intro xs; rfl
  | succ f ih =>
    intro xs
    simp [cmpGo, ih]

theorem cmpGo_swap (fuel : Nat) : ∀ xs ys, cmpGo fuel ys xs = (cmpGo fuel xs ys).swap := by
  induction fuel with
  | zero => intro xs ys; rfl
  | succ f ih =>
    intro xs ys
    simp only [cmpGo]
    by_cases hg : xs.headD 0 = 0 ∧ ys.headD 0 = 0
    · rw [if_pos hg, if_pos ⟨hg.2, hg.1⟩]
      rfl
    · have hg2 : ¬ (ys.headD 0 = 0 ∧ xs.headD 0 = 0) := fun h => hg ⟨h.2, h.1⟩
      rw [if_neg hg2, if_neg hg]
      rcases Nat.lt_trichotomy (decimalDigitsT (xs.headD 0)).2
        (decimalDigitsT (ys.headD 0)).2 with h1 | h1 | h1
      · simp only [if_neg (Nat.lt_asymm h1), if_pos h1]
        rfl
      · rw [h1]
        simp only [Nat.lt_irrefl, if_false]
        rcases Nat.lt_trichotomy (decimalDigitsT (xs.headD 0)).1
          (decimalDigitsT (ys.headD 0)).1 with h2 | h2 | h2
        · simp only [if_neg (Nat.lt_asymm h2), if_pos h2]
          rfl
        · rw [h2]
          simp only [Nat.lt_irrefl, if_false]
          exact ih xs.tail ys.tail
        · simp only [if_neg (Nat.lt_asymm h2), if_pos h2]
          rfl
      · simp only [if_neg (Nat.lt_asymm h1), if_pos h1]
        rfl

theorem cmpDigits_self (l : List Nat) : cmpDigits l l = Ordering.eq := by
  unfold cmpDigits
  exact cmpGo_self _ _

theorem cmpDigits_swap (n m : List Nat) : cmpDigits m n = (cmpDigits n m).swap := by
  unfold cmpDigits
  rw [Nat.add_comm m.length n.length]
  exact cmpGo_swap _ _ _

theorem effNeg_not (v : Infinint) (b : Bool) : effNeg v (!b) = !(effNeg v b) := by
  cases b <;> simp [effNeg]

theorem infinintCmp_swap (n m : Infinint) (bn bm : Bool) :
    infinintCmp m n bm bn = (infinintCmp n m bn bm).swap := by
  unfold infinintCmp
  cases hn : effNeg n bn <;> cases hm : effNeg m bm
  · rcases Nat.lt_trichotomy n.digits_vec.length m.digits_vec.length with h | h | h
    · simp [hn, hm, h, Nat.lt_asymm h, Ordering.swap]
    · simp [hn, hm, h, Nat.lt_irrefl, cmpDigits_swap n.digits_vec m.digits_vec]
    · simp [hn, hm, h, Nat.lt_asymm h, Ordering.swap]
  · simp [hn, hm, Ordering.swap]
  · simp [hn, hm, Ordering.swap]
  · rcases Nat.lt_trichotomy n.digits_vec.length m.digits_vec.length with h | h | h
    · simp [hn, hm, h, Nat.lt_asymm h, Ordering.swap]
    · simp [hn, hm, h, Nat.lt_irrefl, cmpDigits_swap n.digits_vec m.digits_vec]
    · simp [hn, hm, h, Nat.lt_asymm h, Ordering.swap]

/-- One unfolding step of the dispatcher: addition with effective signs
(non-negative, negative) re-routes to subtraction with the second negate
flag flipped. -/
theorem opF_stepA_FT (fuel : Nat) (n m : Infinint) (bn bm br : Bool)
    (hn : effNeg n bn = false) (hm : effNeg m bm = true) :
    infinintOpF (fuel + 1) ArithOp.add n m bn bm br =
      infinintOpF fuel ArithOp.sub n m bn (!bm) br := by
  simp [infinintOpF, hn, hm]

/-- One unfolding step: addition with effective signs (negative,
non-negative) re-routes to subtraction with the operands swapped. -/
theorem opF_stepA_TF (fuel : Nat) (n m : Infinint) (bn bm br : Bool)
    (hn : effNeg n bn = true) (hm : effNeg m bm = false) :
    infinintOpF (fuel + 1) ArithOp.add n m bn bm br =
      infinintOpF fuel ArithOp.sub m n bm (!bn) br := by
  simp [infinintOpF, hn, hm]

/-- One unfolding step: addition with equal effective signs is a single
`op_digits` pass, hence never runs out of fuel. -/
theorem opF_add_same (fuel : Nat) (n m : Infinint) (bn bm br : Bool)
    (h : effNeg n bn = effNeg m bm) :
    (infinintOpF (fuel + 1) ArithOp.add n m bn bm br).isSome := by
  cases hn : effNeg n bn <;> rw [hn] at h <;>
    simp [infinintOpF, hn, h.symm]

/-- One unfolding step: subtraction with effective signs (non-negative,
negative) re-routes to addition. -/
theorem opF_stepS_FT (fuel : Nat) (n m : Infinint) (bn bm br : Bool)
    (hn : effNeg n bn = false) (hm : effNeg m bm = true) :
    infinintOpF (fuel + 1) ArithOp.sub n m bn bm br =
      infinintOpF fuel ArithOp.add n m bn (!bm) br := by
  simp [infinintOpF, hn, hm]

/-- One unfolding step: subtraction with effective signs (negative,
non-negative) re-routes to addition with the result negated. -/
theorem opF_stepS_TF (fuel : Nat) (n m : Infinint) (bn bm br : Bool)
    (hn : effNeg n bn = true) (hm : effNeg m bm = false) :
    infinintOpF (fuel + 1) ArithOp.sub n m bn bm br =
      infinintOpF fuel ArithOp.add n m (!bn) bm (!br) := by
  simp [infinintOpF, hn, hm]

/-- One unfolding step: subtraction with both effective signs negative
swaps the operands and complements both negate flags. -/
theorem opF_stepS_TT (fuel : Nat) (n m : Infinint) (bn bm br : Bool)
    (hn : effNeg n bn = true) (hm : effNeg m bm = true) :
    infinintOpF (fuel + 1) ArithOp.sub n m bn bm br =
      infinintOpF fuel ArithOp.sub m n (!bm) (!bn) br := by
  simp [infinintOpF, hn, hm]

/-- One unfolding step: subtraction with both effective signs non-negative
and a smaller first magnitude swaps the operands and negates the result. -/
theorem opF_stepS_lt (fuel : Nat) (n m : Infinint) (bn bm br : Bool)
    (hn : effNeg n bn = false) (hm : effNeg m bm = false)
    (hc : infinintCmp n m bn bm = Ordering.lt) :
    infinintOpF (fuel + 1) ArithOp.sub n m bn bm br =
      infinintOpF fuel ArithOp.sub m n bm bn (!br) := by
  simp [infinintOpF, hn, hm, hc]

/-- One unfolding step: subtraction with both effective signs non-negative
and a magnitude comparison other than `Less` completes immediately. -/
theorem opF_stepS_ge (fuel : Nat) (n m : Infinint) (bn bm br : Bool)
    (hn : effNeg n bn = false) (hm : effNeg m bm = false)
    (hc : infinintCmp n m bn bm ≠ Ordering.lt) :
    (infinintOpF (fuel + 1) ArithOp.sub n m bn bm br).isSome := by
  cases hc2 : infinintCmp n m bn bm with
  | lt => exact absurd hc2 hc
  | eq => simp [infinintOpF, hn, hm, hc2]
  | gt => simp [infinintOpF, hn, hm, hc2]

/-- With both effective signs non-negative, the subtraction path needs at
most one operand swap, so two units of fuel always suffice. -/
theorem opF_sub_pos (f : Nat) (n m : Infinint) (bn bm br : Bool)
    (hn : effNeg n bn = false) (hm : effNeg m bm = false) :
    (infinintOpF (f + 2) ArithOp.sub n m bn bm br).isSome := by
  by_cases hc : infinintCmp n m bn bm = Ordering.lt
  · rw [show f + 2 = (f + 1) + 1 from rfl, opF_stepS_lt (f + 1) n m bn bm br hn hm hc]
    apply opF_stepS_ge f m n bm bn (!br) hm hn
    rw [infinintCmp_swap, hc]
    simp [Ordering.swap]
  · exact opF_stepS_ge (f + 1) n m bn bm br hn hm hc

/-- Three units of fuel suffice for the subtraction dispatcher on every
input. -/
theorem opF_sub_isSome (f : Nat) (n m : Infinint) (bn bm br : Bool) :
    (infinintOpF (f + 3) ArithOp.sub n m bn bm br).isSome := by
  cases hn : effNeg n bn <;> cases hm : effNeg m bm
  · exact opF_sub_pos (f + 1) n m bn bm br hn hm
  · rw [show f + 3 = (f + 2) + 1 from rfl, opF_stepS_FT (f + 2) n m bn bm br hn hm]
    exact opF_add_same (f + 1) n m bn (!bm) br (by rw [effNeg_not, hn, hm]; rfl)
  · rw [show f + 3 = (f + 2) + 1 from rfl, opF_stepS_TF (f + 2) n m bn bm br hn hm]
    exact opF_add_same (f + 1) n m (!bn) bm (!br) (by rw [effNeg_not, hn, hm]; rfl)
  · rw [show f + 3 = (f + 2) + 1 from rfl, opF_stepS_TT (f + 2) n m bn bm br hn hm]
    exact opF_sub_pos f m n (!bm) (!bn) br
      (by rw [effNeg_not, hm]; rfl) (by rw [effNeg_not, hn]; rfl)

/-- Three units of fuel suffice for the addition dispatcher on every
input. -/
theorem opF_add_isSome (f : Nat) (n m : Infinint) (bn bm br : Bool) :
    (infinintOpF (f + 3) ArithOp.add n m bn bm br).isSome := by
  cases hn : effNeg n bn <;> cases hm : effNeg m bm
  · exact opF_add_same (f + 2) n m bn bm br (by rw [hn, hm])
  · rw [show f + 3 = (f + 2) + 1 from rfl, opF_stepA_FT (f + 2) n m bn bm br hn hm]
    exact opF_sub_pos f n m bn (!bm) br hn (by rw [effNeg_not, hm]; rfl)
  · rw [show f + 3 = (f + 2) + 1 from rfl, opF_stepA_TF (f + 2) n m bn bm br hn hm]
    exact opF_sub_pos f m n bm (!bn) br hm (by rw [effNeg_not, hn]; rfl)
  · exact opF_add_same (f + 2) n m bn bm br (by rw [hn, hm])

/-- Negation flips the sign flag twice, so double negation is the identity
representation. -/
theorem neg_neg_id (v : Infinint) : Infinint.neg (Infinint.neg v) = v := by
  simp [Infinint.neg]

/-- Comparing a value with itself yields `Equal`. -/
theorem infinintCmp_self (v : Infinint) : infinintCmp v v false false = Ordering.eq := by
  unfold infinintCmp
  cases hv : v.negative <;>
    simp [effNeg, hv, cmpDigits_self, Ordering.swap]

/-- Adding a value to its negation lands in the `Equal` branch of the
subtraction dispatcher and returns the canonical zero. -/
theorem add_neg_self (v : Infinint) :
    Infinint.add v (Infinint.neg v) = some (Infinint.fromInt 0) := by
  unfold Infinint.add
  cases hv : v.negative
  · rw [show (4 : Nat) = 3 + 1 from rfl,
      opF_stepA_FT 3 v (Infinint.neg v) false false false
        (by simp [effNeg, hv]) (by simp [effNeg, Infinint.neg, hv])]
    have hcmp : infinintCmp v ⟨true, v.digits_vec⟩ false true = Ordering.eq := by
      unfold infinintCmp
      simp [effNeg, hv, cmpDigits_self]
    rw [show (3 : Nat) = 2 + 1 from rfl]
    simp [infinintOpF, effNeg, Infinint.neg, hv, hcmp]
  · rw [show (4 : Nat) = 3 + 1 from rfl,
      opF_stepA_TF 3 v (Infinint.neg v) false false false
        (by simp [effNeg, hv]) (by simp [effNeg, Infinint.neg, hv])]
    have hcmp : infinintCmp ⟨false, v.digits_vec⟩ v false true = Ordering.eq := by
      unfold infinintCmp
      simp [effNeg, hv, cmpDigits_self]
    rw [show (3 : Nat) = 2 + 1 from rfl]
    simp [infinintOpF, effNeg, Infinint.neg, hv, hcmp]

/-- The loop of `digits_vec_from_int`, given enough fuel and a value whose
decimal digit count is odd, ends with a byte whose low nybble is zero: the
final loop iteration starts from a single remaining digit, which goes into
the high nybble while the low nybble receives `(n / 10) % 10 = 0`. -/
theorem dvGo_last (f : Nat) : ∀ n, 0 < n → n ≤ f →
    (Nat.digits 10 n).length % 2 = 1 →
    decimalDigitLow ((dvGo f n).getLastD 0) = 0 := by
  induction f with
  | zero => intro n h0 hle _; omega
  | succ f ih =>
    intro n h0 hle hodd
    have hne : n ≠ 0 := Nat.pos_iff_ne_zero.mp h0
    have hd1 : Nat.digits 10 n = n % 10 :: Nat.digits 10 (n / 10) :=
      Nat.digits_def' (by norm_num) h0
    by_cases hsmall : n < 10
    · have h10 : n / 10 = 0 := Nat.div_eq_of_lt hsmall
      rw [show dvGo (f + 1) n =
          if n = 0 then [] else ((n / 10 % 10) ||| ((n % 10) <<< 4)) :: dvGo f (n / 10 / 10)
        from rfl]
      rw [if_neg hne, h10]
      simp only [Nat.zero_div, dvGo_zero, Nat.zero_mod, List.getLastD_cons, List.getLastD_nil]
      exact (nybble_decode (n % 10) (by omega) 0 (by omega)).2
    · have h10 : 0 < n / 10 := Nat.div_pos (by omega) (by norm_num)
      have hd2 : Nat.digits 10 (n / 10) = (n / 10) % 10 :: Nat.digits 10 (n / 10 / 10) :=
        Nat.digits_def' (by norm_num) h10
      by_cases hmid : n < 100
      · have h100 : n / 10 / 10 = 0 := by omega
        rw [hd1, hd2, h100] at hodd
        simp at hodd
      · have h100 : 0 < n / 100 := Nat.div_pos (by omega) (by norm_num)
        have hdd : n / 10 / 10 = n / 100 := by
          rw [Nat.div_div_eq_div_mul]
        rw [show dvGo (f + 1) n =
            if n = 0 then [] else ((n / 10 % 10) ||| ((n % 10) <<< 4)) :: dvGo f (n / 10 / 10)
          from rfl]
        rw [if_neg hne, hdd]
        have hfle : n / 100 ≤ f := by
          have : n / 100 < n := Nat.div_lt_self h0 (by norm_num)
          omega
        have hrec := ih (n / 100) h100 hfle (by
          rw [hd1, hd2, hdd] at hodd
          simp only [List.length_cons] at hodd
          omega)
        have hne2 : dvGo f (n / 100) ≠ [] := dvGo_ne_nil f (n / 100) h100 hfle
        rw [List.getLastD_cons]
        rw [List.getLastD_eq_getLast?] at hrec ⊢
        cases hlast : (dvGo f (n / 100)).getLast? with
        | none => exact absurd (List.getLast?_eq_none_iff.mp hlast) hne2
        | some x =>
          rw [hlast] at hrec
          simpa using hrec

/-! The claims. -/

/-- C1: the claim says `from(x) + from(y) == from(x + y)` under the library
equality for all in-range signed `x, y`. The code violates it: at
`x = 10000, y = 0` the early exit of the `op_digits` loop on the interior
zero bytes of `from(10000) = [0x00, 0x00, 0x10]` discards the byte `0x10`,
the sum evaluates to zero, and the library equality (comparison returning
`Equal`) rejects `from(10000) + from(0) == from(10000 + 0)`. -/
theorem c1_add_drops_digits :
    Infinint.add (Infinint.fromInt 10000) (Infinint.fromInt 0) = some ⟨false, [0x00]⟩ ∧
    ¬ infinintEq ⟨false, [0x00]⟩ (Infinint.fromInt (10000 + 0)) := by
  decide

/-- C2: the claim says `from(x) < from(y) ⇔ x < y` in particular for
equal-length magnitudes sharing a zero byte. The code violates it:
`from(10000) = [0x00, 0x00, 0x10]` and `from(10001) = [0x10, 0x00, 0x10]`
have equal lengths and `cmp_digits` stops at the interior all-zero byte
pair, so the comparison returns `Equal` although `10000 < 10001`. -/
theorem c2_cmp_misses_interior_difference :
    infinintCmp (Infinint.fromInt 10000) (Infinint.fromInt 10001) false false = Ordering.eq ∧
    (10000 : Int) < 10001 := by
  decide

/-- C3: the claim says the `op_digits` loop only stops once no nonzero
input byte remains at or beyond the current position. The code violates it:
with inputs `[0x00, 0x00, 0x10]` (the magnitude of 10000) and `[0x00]` the
loop exits at position 0, where both current bytes are zero, and the
nonzero byte `0x10` at position 2 is dropped; the pass returns `[0x00]`. -/
theorem c3_op_digits_early_exit :
    opDigits [0x00, 0x00, 0x10] [0x00] decimalAddWithCarry = [0x00] ∧
    [0x00, 0x00, 0x10].getLastD 0 ≠ 0 := by
  decide

/-- C4: the claim says every result magnitude is trimmed of superfluous
leading (storage-order trailing) zero bytes. The code violates it:
`from(100) - from(1)` runs the subtraction pass over `[0x00, 0x10]` and
`[0x10]` and returns the magnitude `[0x99, 0x00]`, which keeps a
superfluous zero byte; the canonical magnitude of 99 is the single byte
`[0x99]` that construction produces. -/
theorem c4_subtract_keeps_leading_zero :
    Infinint.sub (Infinint.fromInt 100) (Infinint.fromInt 1) = some ⟨false, [0x99, 0x00]⟩ ∧
    (Infinint.fromInt 99).digits_vec = [0x99] := by
  decide

/-- C5: the claim says the negation of `from(0)` compares equal to
`from(0)`. The code violates it: negation flips the sign flag of zero
without a special case, and `infinint_cmp` tests the sign flags before
looking at the (zero) magnitudes, so `-from(0)` compares strictly `Less`
than `from(0)`. -/
theorem c5_negated_zero_compares_less :
    infinintCmp (Infinint.neg (Infinint.fromInt 0)) (Infinint.fromInt 0) false false =
      Ordering.lt := by
  decide

/-- C6 counterexample: the claim says `from(137)` stores the magnitude
bytes `[0x73, 0x01]`. The code stores `[0x73, 0x10]` (the doc comment and
unit test of the source agree with the code): the lower-order digit of a
pair goes into the high nybble, so the odd-count placeholder is the low
nybble of the final byte, not the high one. -/
theorem c6_counterexample : digitsVecFromInt 137 ≠ [0x73, 0x01] := by
  decide

/-- C6 as amended: `from(137)` stores the magnitude bytes `[0x73, 0x10]`,
and in general when the decimal digit count is odd the low nybble of the
final stored byte is 0 (the unused placeholder), each byte holding the
lower-order decimal digit of its pair in the high nybble. -/
theorem c6_odd_count_padding :
    digitsVecFromInt 137 = [0x73, 0x10] ∧
    ∀ n : Nat, 0 < n → (Nat.digits 10 n).length % 2 = 1 →
      decimalDigitLow ((digitsVecFromInt n).getLastD 0) = 0 := by
  refine ⟨by decide, fun n h0 hodd => ?_⟩
  unfold digitsVecFromInt
  rw [if_pos h0]
  exact dvGo_last n n h0 (Nat.le_refl n) hodd

/-- C6 witness: the amended general statement applied at the one-digit
value 5, whose digit count is odd. -/
theorem c6_odd_count_padding_witness :
    0 < 5 ∧ (Nat.digits 10 5).length % 2 = 1 ∧
    decimalDigitLow ((digitsVecFromInt 5).getLastD 0) = 0 := by
  have h5 : (Nat.digits 10 5).length % 2 = 1 := by
    rw [Nat.digits_def' (by norm_num : (1 : ℕ) < 10) (by norm_num)]
    norm_num
  exact ⟨by norm_num, h5, c6_odd_count_padding.2 5 (by norm_num) h5⟩

/-- C7: the claim says construction from every supported fixed-width
integer succeeds, including `i128::MIN`. The code violates it: `From<i128>`
computes `n.abs()`, which overflows `i128` exactly at `i128::MIN = -2^127`
and panics when overflow checks are enabled (the profile the crate tests
run under); the checked model returns `none` there. -/
theorem c7_from_i128_min_overflows : fromI128Checked (-(2 ^ 127)) = none := by
  unfold fromI128Checked
  rw [if_pos rfl]

/-- C8: the claim says the default display groups digits in threes with
commas and renders `from(1998)` as `"1,998"`. The code violates it: the
comma positions are computed against `num_chars`, the digit count plus the
comma count, so `from(1998)` renders as `"19,98"` and `from(100)` as
`",100"`; the digit decoding itself is as claimed,
`from(1998).digits() = [8, 9, 9, 1]`. -/
theorem c8_display_comma_misplaced :
    (Infinint.fromU128 1998).display = "19,98" ∧
    (Infinint.fromU128 1998).digits = [8, 9, 9, 1] ∧
    (Infinint.fromU128 100).display = ",100" := by
  decide

/-- C9: negation is an involution under the library equality, and adding a
value to its own negation takes the `Equal` branch of the subtraction
dispatcher and returns the canonical zero `⟨false, [0x00]⟩`, for every
well-formed value (the data-model invariant of spec section 3). -/
theorem c9_involution_and_inverse (v : Infinint) (_hv : WellFormed v) :
    infinintCmp (Infinint.neg (Infinint.neg v)) v false false = Ordering.eq ∧
    Infinint.add v (Infinint.neg v) = some (Infinint.fromInt 0) := by
  constructor
  · rw [neg_neg_id]
    exact infinintCmp_self v
  · exact add_neg_self v

/-- C9 witness: the involution and inverse facts instantiated at
`from(-42)`. -/
theorem c9_involution_and_inverse_witness :
    WellFormed (Infinint.fromInt (-42)) ∧
    (infinintCmp (Infinint.neg (Infinint.neg (Infinint.fromInt (-42))))
        (Infinint.fromInt (-42)) false false = Ordering.eq ∧
      Infinint.add (Infinint.fromInt (-42)) (Infinint.neg (Infinint.fromInt (-42))) =
        some (Infinint.fromInt 0)) :=
  ⟨by decide, c9_involution_and_inverse (Infinint.fromInt (-42)) (by decide)⟩

/-- C10: the mutually recursive dispatcher terminates on every pair of
operands and every flag setting: fuel 4 is never exhausted, because each
recursive step either flips into the other operation once before a base
case or swaps the operands once. -/
theorem c10_dispatcher_terminates (n m : Infinint) (bn bm br : Bool) :
    (infinintOpF 4 ArithOp.add n m bn bm br).isSome ∧
    (infinintOpF 4 ArithOp.sub n m bn bm br).isSome :=
  ⟨opF_add_isSome 1 n m bn bm br, opF_sub_isSome 1 n m bn bm br⟩
